import Mathlib

/-!
Shallow embedding of the vintage-cohort reconstruction algorithm of
powerplantmatching's heuristics module (the function
derive_vintage_cohorts_from_statistics together with its inner helpers
setInitial_Flat, setInitial_Triangle, setHistorical and reduceVintages),
plus theorems settling the specification's claims about it.

Capacities are modelled as rationals.  The pandas working matrix becomes
a total function from (vintage row, observation column) to rationals,
where a cell never written (NaN in pandas) is represented by 0: NaN
contributes 0 to every column sum the algorithm takes, fails every
strict positivity test, and is dropped by every positivity filter, so
the two representations are observationally identical for this code.
The pandas row index (which grows by .loc enlargement) is carried as an
explicit list of vintage years.
-/

namespace PPM

/-- The cohort matrix of one (country, technology) partition: cell
values indexed by (vintage row, observation column), plus the pandas
row index, which grows when `.loc` assigns a previously absent row. -/
structure CMat where
  val : Int → Int → ℚ
  rows : List Int

/-- The assignment `mat.loc[v, lo:hi] = x`: every cell of row `v` whose
column lies in `[lo, hi]` is set to `x`; `v` is appended to the row
index when absent (pandas `.loc` enlargement).  An empty slice
(`hi < lo`) writes nothing. -/
def CMat.write (m : CMat) (v lo hi : Int) (x : ℚ) : CMat where
  val := fun r c => if r = v ∧ lo ≤ c ∧ c ≤ hi then x else m.val r c
  rows := if v ∈ m.rows then m.rows else m.rows ++ [v]

/-- `mat.loc[:, c].sum()`: the sum of column `c` over the row index
(NaN cells contribute nothing, i.e. 0 in this model). -/
def CMat.colSum (m : CMat) (c : Int) : ℚ :=
  (m.rows.map fun v => m.val v c).sum

/-- The freshly constructed matrix
`pd.DataFrame(columns=range(y_start-life+1, y_end+life),
index=range(y_start-life+1, y_end))`: all cells unset, row index
`[y_start-life+1, ..., y_end-1]`. -/
def freshMat (yStart yEnd : Int) (life : ℕ) : CMat where
  val := fun _ _ => 0
  rows := (List.range (yEnd - (yStart - (life : Int) + 1)).toNat).map
    fun (i : ℕ) => yStart - (life : Int) + 1 + (i : Int)

/-- `height_flat = float(df.loc[y_start].Capacity) / life`. -/
def heightFlat (cap0 : ℚ) (life : ℕ) : ℚ := cap0 / (life : ℚ)

/-- `decr = 2.0*height_flat/life`, the slope of the triangle. -/
def triDecr (cap0 : ℚ) (life : ℕ) : ℚ := 2 * heightFlat cap0 life / (life : ℚ)

/-- `height_tri = 2.0*height_flat - decr/2.0`, the height of the
triangle at its right side. -/
def triHeight (cap0 : ℚ) (life : ℕ) : ℚ :=
  2 * heightFlat cap0 life - triDecr cap0 life / 2

/-- The triangle value assigned to the `i`-th initial vintage year
(`i = 0` is the oldest, `y_start-life+1`): position `i` of the reversed
series `[(height_tri - j*decr) for j in range(0, life)][::-1]`. -/
def triSeries (cap0 : ℚ) (life i : ℕ) : ℚ :=
  triHeight cap0 life - ((life - 1 - i : ℕ) : ℚ) * triDecr cap0 life

/-- Inner function `setInitial_Flat(mat, df, life)`: for each `y` in
`range(mat.index[0], y_start+1)` assign `height_flat` to
`mat.loc[y, y:min(y+life-1, mat.columns[-1])]`. -/
def setInitial_Flat (mat : CMat) (yStart : Int) (cap0 : ℚ) (life : ℕ)
    (lastCol : Int) : CMat :=
  (List.range life).foldl
    (fun m (i : ℕ) =>
      m.write (yStart - (life : Int) + 1 + (i : Int))
        (yStart - (life : Int) + 1 + (i : Int))
        (min (yStart - (life : Int) + 1 + (i : Int) + (life : Int) - 1) lastCol)
        (heightFlat cap0 life))
    mat

/-- Inner function `setInitial_Triangle(mat, df, life)`: for each `y` in
`range(mat.index[0], y_start+1)` assign `dic[y]` (the reversed
triangle series) to `mat.loc[y, y:min(y+life-1, mat.columns[-1])]`. -/
def setInitial_Triangle (mat : CMat) (yStart : Int) (cap0 : ℚ) (life : ℕ)
    (lastCol : Int) : CMat :=
  (List.range life).foldl
    (fun m (i : ℕ) =>
      m.write (yStart - (life : Int) + 1 + (i : Int))
        (yStart - (life : Int) + 1 + (i : Int))
        (min (yStart - (life : Int) + 1 + (i : Int) + (life : Int) - 1) lastCol)
        (triSeries cap0 life i))
    mat

/-- The loop body of `reduceVintages(addition, mat, life, y_pres)`,
iterating over the row index: rows with `val_rem = mat.loc[year, y_pres]`
not strictly positive are skipped; if `abs(addition) > val_rem` the row's
slice `[y_pres, year+life-1]` is zeroed and `val_rem` is absorbed into
`addition`; otherwise the slice is set to `val_rem + addition` and the
loop breaks. -/
def reduceList (life : ℕ) (yPres : Int) : List Int → ℚ → CMat → CMat
  | [], _, mat => mat
  | year :: rest, addition, mat =>
    if 0 < mat.val year yPres then
      if mat.val year yPres < |addition| then
        reduceList life yPres rest (addition + mat.val year yPres)
          (mat.write year yPres (year + (life : Int) - 1) 0)
      else
        mat.write year yPres (year + (life : Int) - 1)
          (mat.val year yPres + addition)
    else
      reduceList life yPres rest addition mat

/-- Inner function `reduceVintages(addition, mat, life, y_pres)`:
waterfall early retirement over the row index in its (ascending)
order. -/
def reduceVintages (addition : ℚ) (mat : CMat) (life : ℕ) (yPres : Int) : CMat :=
  reduceList life yPres mat.rows addition mat

/-- One iteration of `setHistorical`'s while-loop at `year`: if `year`
is in the statistic's index, compute
`addition = df.loc[year].Capacity - mat.loc[:, year].sum()`; on
`addition >= 0` assign it to `mat.loc[year, year:year+life-1]`,
otherwise zero that slice and call `reduceVintages`; a year absent from
the index just gets the zero slice. -/
def histYear (isObs : Int → Bool) (cap : Int → ℚ) (life : ℕ) (year : Int)
    (mat : CMat) : CMat :=
  if isObs year then
    if 0 ≤ cap year - mat.colSum year then
      mat.write year year (year + (life : Int) - 1) (cap year - mat.colSum year)
    else
      reduceVintages (cap year - mat.colSum year)
        (mat.write year year (year + (life : Int) - 1) 0) life year
  else
    mat.write year year (year + (life : Int) - 1) 0

/-- The first `k` iterations of `setHistorical`'s while-loop, starting
at year `yFirst` (`df.index[1]` in the source). -/
def histSteps (isObs : Int → Bool) (cap : Int → ℚ) (life : ℕ) (yFirst : Int)
    (k : ℕ) (mat : CMat) : CMat :=
  (List.range k).foldl
    (fun m (i : ℕ) => histYear isObs cap life (yFirst + (i : Int)) m) mat

/-- Inner function `setHistorical(mat, df, life)`: run the while-loop
from `year = df.index[1]` while `year <= df.index.max()`. -/
def setHistorical (mat : CMat) (isObs : Int → Bool) (cap : Int → ℚ) (life : ℕ)
    (yFirst yMax : Int) : CMat :=
  histSteps isObs cap life yFirst (yMax - yFirst + 1).toNat mat

/-- One while-loop iteration of `setHistorical` paired with the log of
warning messages it emits: no branch of the source's `setHistorical`
contains a logging call, so the log component is never extended. -/
def histYearLog (isObs : Int → Bool) (cap : Int → ℚ) (life : ℕ) (year : Int)
    (s : CMat × List String) : CMat × List String :=
  (histYear isObs cap life year s.1, s.2)

/-- `setHistorical` with its (empty) warning log made explicit. -/
def setHistoricalLog (mat : CMat) (isObs : Int → Bool) (cap : Int → ℚ)
    (life : ℕ) (yFirst yMax : Int) : CMat × List String :=
  (List.range (yMax - yFirst + 1).toNat).foldl
    (fun s (i : ℕ) => histYearLog isObs cap life (yFirst + (i : Int)) s) (mat, [])

/-- Errors the derivation can raise: the lifetime-table lookup failure
at `fueltype_to_life()[fueltype]` (the spec's ConfigurationError, which
carries the offending fuel type), the `mat.loc[:, base_year]` lookup
failure (KeyError), and indexing the index of an empty partition. -/
inductive DeriveError where
  | configurationError (fueltype : String)
  | keyError (year : Int)
  | indexError
deriving DecidableEq

/-- One (country, technology) group of the input statistics: `obsYears`
is the dataframe's index after `set_index('Year')` and `cap` the
Capacity column lookup. -/
structure StatPartition where
  country : String
  technology : String
  fueltype : String
  setName : String
  obsYears : List Int
  cap : Int → ℚ

/-- One output row of the derivation (after the rename of `Year` to
`YearCommissioned`). -/
structure VintageCohort where
  country : String
  technology : String
  fueltype : String
  setName : String
  yearCommissioned : Int
  capacity : ℚ
deriving DecidableEq

/-- `np.isclose(x, 0)` with numpy's default tolerances
(`atol = 1e-08`, `rtol` irrelevant against 0). -/
def npIsClose0 (x : ℚ) : Bool := decide (|x| ≤ 1 / 100000000)

/-- The fuel types routed to the triangle initial distribution. -/
def triangleFuels : List String := ["Solar", "Wind", "Bioenergy", "Geothermal"]

/-- The per-partition extraction: pair every row of `mat.index` with its
value in column `base_year`, keep rows with `Capacity > 0`, and emit
VintageCohort records carrying the partition's labels. -/
def extractCohorts (p : StatPartition) (mat : CMat) (baseYear : Int) :
    List VintageCohort :=
  ((mat.rows.map fun v => (v, mat.val v baseYear)).filter
      fun q => decide (0 < q.2)).map
    fun q =>
      { country := p.country, technology := p.technology,
        fueltype := p.fueltype, setName := p.setName,
        yearCommissioned := q.1, capacity := q.2 }

/-- Processing of one (country, technology) partition inside
`derive_vintage_cohorts_from_statistics`: read `y_start = dfs.index[0]`
and `y_end = dfs.index[-1]` (an empty index errors), look the lifetime
up in the table, build and fill the matrix (triangle initialisation for
the four RES fuel types, flat otherwise, then `setHistorical` whenever
`y_end > y_start`), and extract column `base_year` — a `base_year`
outside the matrix columns `[y_start-life+1, y_end+life-1]` raises a
lookup error. -/
def derivePartition (lifetable : String → Option ℕ) (baseYear : Int)
    (p : StatPartition) : Except DeriveError (List VintageCohort) :=
  match p.obsYears with
  | [] => .error .indexError
  | y0 :: restYears =>
    match lifetable p.fueltype with
    | none => .error (.configurationError p.fueltype)
    | some life =>
      let yStart := y0
      let yEnd := List.getLastD (y0 :: restYears) 0
      let mat0 := freshMat yStart yEnd life
      let mat1 :=
        if p.fueltype ∈ triangleFuels then
          setInitial_Triangle mat0 yStart (p.cap yStart) life
            (yEnd + (life : Int) - 1)
        else
          setInitial_Flat mat0 yStart (p.cap yStart) life
            (yEnd + (life : Int) - 1)
      let mat2 :=
        if yStart < yEnd then
          match restYears with
          | [] => mat1
          | y1 :: _ =>
            setHistorical mat1 (fun y => decide (y ∈ p.obsYears)) p.cap life y1
              (restYears.foldl max y0)
        else mat1
      if yStart - (life : Int) + 1 ≤ baseYear ∧ baseYear ≤ yEnd + (life : Int) - 1 then
        .ok (extractCohorts p mat2 baseYear)
      else .error (.keyError baseYear)

/-- `derive_vintage_cohorts_from_statistics(df, base_year)`: process
the partitions in order, concatenating their outputs (an exception in
any partition aborts the whole call), then drop rows whose Capacity is
numerically close to zero. -/
def derive_vintage_cohorts_from_statistics (lifetable : String → Option ℕ)
    (parts : List StatPartition) (baseYear : Int) :
    Except DeriveError (List VintageCohort) :=
  (parts.foldl
    (fun (acc : Except DeriveError (List VintageCohort)) p => acc.bind fun done =>
      (derivePartition lifetable baseYear p).map fun added => done ++ added)
    (.ok [])).map
    fun dfe => dfe.filter fun r => !(npIsClose0 r.capacity)

/-- `df.index[0]` of a partition (0 for an empty index, which the
algorithm rejects anyway). -/
def yStartOf (p : StatPartition) : Int := p.obsYears.headD 0

/-- `df.index[-1]` of a partition. -/
def yEndOf (p : StatPartition) : Int := p.obsYears.getLastD 0

/-- The `life` assumed vintage years `[y_start-life+1, y_start]` seeded
by the initial distribution, oldest first. -/
def initialSpan (yStart : Int) (life : ℕ) : List Int :=
  (List.range life).map fun (i : ℕ) => yStart - (life : Int) + 1 + (i : Int)

/-- The matrix a partition holds after its initial distribution:
triangle policy for the RES fuel types, flat for the rest. -/
def initialState (tri : Bool) (yStart yEnd : Int) (life : ℕ) (cap0 : ℚ) : CMat :=
  if tri then
    setInitial_Triangle (freshMat yStart yEnd life) yStart cap0 life
      (yEnd + (life : Int) - 1)
  else
    setInitial_Flat (freshMat yStart yEnd life) yStart cap0 life
      (yEnd + (life : Int) - 1)

/-- Row structure maintained by every step of the computation: all
cells are non-negative; a vintage row is zero strictly before its
vintage year and strictly after its hard expiry `v+life-1`; along
observation years from the vintage on, a row never increases; and every
row at or after the next year `yNext` to be processed is still
untouched (all zero). -/
def RowInv (life : ℕ) (yNext : Int) (m : CMat) : Prop :=
  (∀ v c, 0 ≤ m.val v c) ∧
  (∀ v c, c < v → m.val v c = 0) ∧
  (∀ v c, v + (life : Int) - 1 < c → m.val v c = 0) ∧
  (∀ v c d, v ≤ c → c ≤ d → m.val v d ≤ m.val v c) ∧
  (∀ v c, yNext ≤ v → m.val v c = 0)

/-- Input pieces for the C1 witness. -/
def wObs : Int → Bool := fun y => decide (y = 2001)

/-- Capacity series for the C1 witness. -/
def wCap : Int → ℚ := fun _ => 5

/-- Starting matrix for the C1 witness (fresh, rows 1998 and 1999). -/
def wMat : CMat := freshMat 2000 2000 2

/-- Starting matrix for the C2 witness: vintage 1998 carries 4 and
vintage 1999 carries 6 on their three-year spans. -/
def wRedMat : CMat where
  val := fun r c =>
    if r = 1998 ∧ 1998 ≤ c ∧ c ≤ 2000 then 4
    else if r = 1999 ∧ 1999 ≤ c ∧ c ≤ 2001 then 6
    else 0
  rows := [1998, 1999]

/-- Lifetime table and partition for the C8 witness. -/
def wNoLifetable : String → Option ℕ := fun _ => none

/-- Partition for the C8 witness. -/
def wGasPartition : StatPartition :=
  { country := "DE", technology := "t", fueltype := "Natural Gas", setName := "PP",
    obsYears := [2000], cap := fun _ => 5 }

/-- Lifetime table for witnesses: every fuel type lives 3 years. -/
def wLifetable : String → Option ℕ := fun _ => some 3

/-- Observed years of the spec's worked scenario. -/
def scenYears : List Int := [2000, 2001, 2002]

/-- Capacity series of the scenario: 100, 120, 90. -/
def scenCap : Int → ℚ := fun y => if y = 2000 then 100 else if y = 2001 then 120 else 90

/-- Index-membership test of the scenario partition, as built inside
`derive_vintage_cohorts_from_statistics`. -/
def scenObs : Int → Bool := fun y => decide (y ∈ scenYears)

/-- Lifetime table of the scenario: 3 years for every fuel type. -/
def scenarioLifetable : String → Option ℕ := fun _ => some 3

/-- The single (country, technology) partition of the scenario, with a
flat-policy (non-RES) fuel type. -/
def scenarioPartition : StatPartition :=
  { country := "DE", technology := "Onshore", fueltype := "Hard Coal", setName := "PP",
    obsYears := scenYears, cap := scenCap }

/-- Scenario matrix after the flat initial distribution. -/
def scenMat1 : CMat := setInitial_Flat (freshMat 2000 2002 3) 2000 (scenCap 2000) 3 2004

/-- Scenario matrix after the allocator year 2001. -/
def scenMat2 : CMat := histYear scenObs scenCap 3 2001 scenMat1

/-- Scenario matrix after the allocator year 2002. -/
def scenMat3 : CMat := histYear scenObs scenCap 3 2002 scenMat2

/-- Observed years of the gap example: 2001 is a gap year. -/
def gapYears : List Int := [2000, 2002]

/-- Capacity series of the gap example. -/
def gapCap : Int → ℚ := fun y => if y = 2000 then 5 else 7

/-- Index-membership test of the gap partition. -/
def gapObs : Int → Bool := fun y => decide (y ∈ gapYears)

/-- Lifetime table of the gap example: 1 year for every fuel type. -/
def gapLifetable : String → Option ℕ := fun _ => some 1

/-- The single partition of the gap example. -/
def gapPartition : StatPartition :=
  { country := "DE", technology := "Onshore", fueltype := "Hard Coal", setName := "PP",
    obsYears := gapYears, cap := gapCap }

/-- Gap-example matrix after the flat initial distribution. -/
def gapMat1 : CMat := setInitial_Flat (freshMat 2000 2002 1) 2000 (gapCap 2000) 1 2002

/-- Gap-example matrix after the allocator year 2002. -/
def gapMat2 : CMat := histYear gapObs gapCap 1 2002 gapMat1


theorem CMat.write_val (m : CMat) (v lo hi : Int) (x : ℚ) (r c : Int) :
    (m.write v lo hi x).val r c =
      if r = v ∧ lo ≤ c ∧ c ≤ hi then x else m.val r c := rfl

theorem CMat.write_rows_of_mem (m : CMat) {v : Int} (lo hi : Int) (x : ℚ)
    (h : v ∈ m.rows) : (m.write v lo hi x).rows = m.rows := by
  simp [CMat.write, h]

/-- A fold of writes at pairwise distinct rows leaves a cell untouched
when no write's row and column slice covers it. -/
theorem foldl_write_val_of_miss (g lo hi : ℕ → Int) (x : ℕ → ℚ) :
    ∀ (n : ℕ) (m : CMat) (r c : Int),
      (∀ j, j < n → ¬(r = g j ∧ lo j ≤ c ∧ c ≤ hi j)) →
      ((List.range n).foldl (fun m i => m.write (g i) (lo i) (hi i) (x i)) m).val r c
        = m.val r c := by
  intro n
  induction n with
  | zero => intro m r c _; simp
  | succ n ih =>
    intro m r c h
    rw [List.range_succ, List.foldl_append]
    simp only [List.foldl_cons, List.foldl_nil, CMat.write_val]
    rw [if_neg (h n (Nat.lt_succ_self n))]
    exact ih m r c fun j hj => h j (Nat.lt_succ_of_lt hj)

/-- A fold of writes at pairwise distinct rows stores the `j`-th value
at every cell of the `j`-th row covered by its column slice. -/
theorem foldl_write_val_of_hit (g lo hi : ℕ → Int) (x : ℕ → ℚ)
    (hg : Function.Injective g) :
    ∀ (n : ℕ) (m : CMat) (j : ℕ) (c : Int), j < n → lo j ≤ c → c ≤ hi j →
      ((List.range n).foldl (fun m i => m.write (g i) (lo i) (hi i) (x i)) m).val (g j) c
        = x j := by
  intro n
  induction n with
  | zero => intro m j c hj _ _; exact absurd hj (Nat.not_lt_zero j)
  | succ n ih =>
    intro m j c hj h1 h2
    rw [List.range_succ, List.foldl_append]
    simp only [List.foldl_cons, List.foldl_nil, CMat.write_val]
    rcases Nat.lt_succ_iff_lt_or_eq.mp hj with hlt | heq
    · rw [if_neg, ih m j c hlt h1 h2]
      rintro ⟨he, -, -⟩
      exact absurd (hg he) (Nat.ne_of_lt hlt)
    · subst heq
      rw [if_pos ⟨rfl, h1, h2⟩]

theorem list_sum_range_eq (f : ℕ → ℚ) (n : ℕ) :
    ((List.range n).map f).sum = ∑ i in Finset.range n, f i := by
  induction n with
  | zero => simp
  | succ n ih =>
    rw [List.range_succ, List.map_append, List.sum_append, Finset.sum_range_succ, ih]
    simp

theorem sum_range_cast_rat (n : ℕ) :
    ∑ i in Finset.range n, (i : ℚ) = (n : ℚ) * ((n : ℚ) - 1) / 2 := by
  induction n with
  | zero => simp
  | succ n ih =>
    rw [Finset.sum_range_succ, ih]
    push_cast
    ring

theorem initRow_injective (yStart : Int) (life : ℕ) :
    Function.Injective (fun i : ℕ => yStart - (life : Int) + 1 + (i : Int)) := by
  intro a b hab
  have hab2 : yStart - (life : Int) + 1 + (a : Int)
      = yStart - (life : Int) + 1 + (b : Int) := hab
  omega

theorem setInitial_Flat_val_hit (yStart yEnd : Int) (life : ℕ) (cap0 : ℚ)
    (lastCol : Int) (j : ℕ) (c : Int) (hj : j < life)
    (h1 : yStart - (life : Int) + 1 + (j : Int) ≤ c)
    (h2 : c ≤ min (yStart - (life : Int) + 1 + (j : Int) + (life : Int) - 1) lastCol) :
    (setInitial_Flat (freshMat yStart yEnd life) yStart cap0 life lastCol).val
        (yStart - (life : Int) + 1 + (j : Int)) c = heightFlat cap0 life := by
  exact foldl_write_val_of_hit (fun i => yStart - (life : Int) + 1 + (i : Int)) _ _ _
    (initRow_injective yStart life) life (freshMat yStart yEnd life) j c hj h1 h2

theorem setInitial_Triangle_val_hit (yStart yEnd : Int) (life : ℕ) (cap0 : ℚ)
    (lastCol : Int) (j : ℕ) (c : Int) (hj : j < life)
    (h1 : yStart - (life : Int) + 1 + (j : Int) ≤ c)
    (h2 : c ≤ min (yStart - (life : Int) + 1 + (j : Int) + (life : Int) - 1) lastCol) :
    (setInitial_Triangle (freshMat yStart yEnd life) yStart cap0 life lastCol).val
        (yStart - (life : Int) + 1 + (j : Int)) c = triSeries cap0 life j := by
  exact foldl_write_val_of_hit (fun i => yStart - (life : Int) + 1 + (i : Int)) _ _ _
    (initRow_injective yStart life) life (freshMat yStart yEnd life) j c hj h1 h2

theorem triDecr_nonneg (cap0 : ℚ) (life : ℕ) (hcap : 0 ≤ cap0) :
    0 ≤ triDecr cap0 life := by
  unfold triDecr heightFlat
  positivity

/-- The closed form of the oldest triangle value: the series bottoms out
at `heightFlat/life`, which is non-negative. -/
theorem triSeries_ge_bottom (cap0 : ℚ) (life : ℕ) (i : ℕ) (hlife : 1 ≤ life)
    (hcap : 0 ≤ cap0) (hi : i < life) : 0 ≤ triSeries cap0 life i := by
  have hL : (0 : ℚ) < (life : ℚ) := by
    exact_mod_cast Nat.lt_of_lt_of_le Nat.zero_lt_one hlife
  have hbound : ((life - 1 - i : ℕ) : ℚ) ≤ (life : ℚ) - 1 := by
    have h1 : (life - 1 - i : ℕ) ≤ life - 1 := Nat.sub_le _ _
    have h2 : ((life - 1 : ℕ) : ℚ) = (life : ℚ) - 1 := by
      rw [Nat.cast_sub hlife]
      norm_num
    calc ((life - 1 - i : ℕ) : ℚ) ≤ ((life - 1 : ℕ) : ℚ) := by exact_mod_cast h1
      _ = (life : ℚ) - 1 := h2
  have hdec : 0 ≤ triDecr cap0 life := triDecr_nonneg cap0 life hcap
  have hkey : triHeight cap0 life - ((life : ℚ) - 1) * triDecr cap0 life
      = heightFlat cap0 life / (life : ℚ) := by
    unfold triHeight triDecr heightFlat
    field_simp
    ring
  have hstep : triHeight cap0 life - ((life : ℚ) - 1) * triDecr cap0 life
      ≤ triSeries cap0 life i := by
    unfold triSeries
    have := mul_le_mul_of_nonneg_right hbound hdec
    linarith
  have hbot : 0 ≤ heightFlat cap0 life / (life : ℚ) := by
    unfold heightFlat
    positivity
  rw [hkey] at hstep
  linarith

/-- Summing a matrix column over the initial span reduces to a
`Finset.range` sum once each span cell's value is known. -/
theorem initialSpan_sum (M : CMat) (yStart : Int) (life : ℕ) (w : ℕ → ℚ)
    (h : ∀ j, j < life → M.val (yStart - (life : Int) + 1 + (j : Int)) yStart = w j) :
    ((initialSpan yStart life).map fun v => M.val v yStart).sum
      = ∑ j in Finset.range life, w j := by
  rw [initialSpan, List.map_map, list_sum_range_eq]
  refine Finset.sum_congr rfl ?_
  intro j hj
  rw [Finset.mem_range] at hj
  exact h j hj

/-- The triangle series sums to the observed starting capacity. -/
theorem triSeries_sum (cap0 : ℚ) (life : ℕ) (hlife : 1 ≤ life) :
    ∑ j in Finset.range life, triSeries cap0 life j = cap0 := by
  have hL : (0 : ℚ) < (life : ℚ) := by
    exact_mod_cast Nat.lt_of_lt_of_le Nat.zero_lt_one hlife
  have hL0 : (life : ℚ) ≠ 0 := ne_of_gt hL
  have hser : ∀ j ∈ Finset.range life, triSeries cap0 life j
      = (fun k : ℕ => triHeight cap0 life - (k : ℚ) * triDecr cap0 life) (life - 1 - j) := by
    intro j _
    rfl
  rw [Finset.sum_congr rfl hser,
    Finset.sum_range_reflect (fun k : ℕ => triHeight cap0 life - (k : ℚ) * triDecr cap0 life) life]
  have hsplit : ∑ k in Finset.range life,
      (triHeight cap0 life - (k : ℚ) * triDecr cap0 life)
      = (life : ℚ) * triHeight cap0 life
        - ((life : ℚ) * ((life : ℚ) - 1) / 2) * triDecr cap0 life := by
    rw [Finset.sum_sub_distrib, Finset.sum_const, Finset.card_range, nsmul_eq_mul,
      ← Finset.sum_mul, sum_range_cast_rat]
  rw [hsplit]
  unfold triHeight triDecr heightFlat
  field_simp
  ring

/-- C4: both initial-distribution policies conserve the observed
starting total.  The sum over the `life` vintage years
`[y_start-life+1, y_start]` of the value assigned at observation year
`y_start` equals `Capacity(y_start)`, for the flat and for the triangle
policy alike. -/
theorem initial_distributions_conserve_total (yStart yEnd : Int) (life : ℕ)
    (cap0 : ℚ) (hlife : 1 ≤ life) (hcap : 0 ≤ cap0) (hy : yStart ≤ yEnd) :
    ((initialSpan yStart life).map fun v =>
        (setInitial_Flat (freshMat yStart yEnd life) yStart cap0 life
            (yEnd + (life : Int) - 1)).val v yStart).sum = cap0 ∧
    ((initialSpan yStart life).map fun v =>
        (setInitial_Triangle (freshMat yStart yEnd life) yStart cap0 life
            (yEnd + (life : Int) - 1)).val v yStart).sum = cap0 := by
  have hL : (0 : ℚ) < (life : ℚ) := by
    exact_mod_cast Nat.lt_of_lt_of_le Nat.zero_lt_one hlife
  have hL0 : (life : ℚ) ≠ 0 := ne_of_gt hL
  have h1 : ∀ j : ℕ, j < life → yStart - (life : Int) + 1 + (j : Int) ≤ yStart := by
    intro j hj
    omega
  have h2 : ∀ j : ℕ, j < life →
      yStart ≤ min (yStart - (life : Int) + 1 + (j : Int) + (life : Int) - 1)
        (yEnd + (life : Int) - 1) := by
    intro j hj
    rw [le_min_iff]
    omega
  constructor
  · rw [initialSpan_sum _ yStart life (fun _ => heightFlat cap0 life)
      (fun j hj => setInitial_Flat_val_hit yStart yEnd life cap0 _ j yStart hj
        (h1 j hj) (h2 j hj))]
    rw [Finset.sum_const, Finset.card_range, nsmul_eq_mul]
    unfold heightFlat
    field_simp
  · rw [initialSpan_sum _ yStart life (triSeries cap0 life)
      (fun j hj => setInitial_Triangle_val_hit yStart yEnd life cap0 _ j yStart hj
        (h1 j hj) (h2 j hj))]
    exact triSeries_sum cap0 life hlife

/-- C4 witness at `y_start = 2000`, `y_end = 2001`, `life = 2`,
`Capacity(y_start) = 10`. -/
theorem initial_distributions_conserve_total_witness :
    ((initialSpan 2000 2).map fun v =>
        (setInitial_Flat (freshMat 2000 2001 2) 2000 10 2 2002).val v 2000).sum = 10 ∧
    ((initialSpan 2000 2).map fun v =>
        (setInitial_Triangle (freshMat 2000 2001 2) 2000 10 2 2002).val v 2000).sum = 10 := by
  have h := initial_distributions_conserve_total 2000 2001 2 10 (by decide)
    (by norm_num) (by decide)
  exact h

/-- C5: the triangle policy's initial vintage capacities are
non-decreasing from the oldest vintage year to the newest, and all of
them are non-negative. -/
theorem triangle_initial_monotone_and_nonneg (yStart yEnd : Int) (life : ℕ)
    (cap0 : ℚ) (hlife : 1 ≤ life) (hcap : 0 ≤ cap0) (hy : yStart ≤ yEnd) :
    (∀ i j : ℕ, i ≤ j → j < life →
      (setInitial_Triangle (freshMat yStart yEnd life) yStart cap0 life
          (yEnd + (life : Int) - 1)).val (yStart - (life : Int) + 1 + (i : Int)) yStart ≤
      (setInitial_Triangle (freshMat yStart yEnd life) yStart cap0 life
          (yEnd + (life : Int) - 1)).val (yStart - (life : Int) + 1 + (j : Int)) yStart) ∧
    (∀ i : ℕ, i < life →
      0 ≤ (setInitial_Triangle (freshMat yStart yEnd life) yStart cap0 life
          (yEnd + (life : Int) - 1)).val (yStart - (life : Int) + 1 + (i : Int)) yStart) := by
  have hhit : ∀ j : ℕ, j < life →
      (setInitial_Triangle (freshMat yStart yEnd life) yStart cap0 life
          (yEnd + (life : Int) - 1)).val (yStart - (life : Int) + 1 + (j : Int)) yStart
        = triSeries cap0 life j := by
    intro j hj
    refine setInitial_Triangle_val_hit yStart yEnd life cap0 _ j yStart hj (by omega) ?_
    rw [le_min_iff]
    omega
  constructor
  · intro i j hij hj
    rw [hhit i (lt_of_le_of_lt hij hj), hhit j hj]
    unfold triSeries
    have hmono : ((life - 1 - j : ℕ) : ℚ) ≤ ((life - 1 - i : ℕ) : ℚ) := by
      exact_mod_cast Nat.sub_le_sub_left hij (life - 1)
    have hdec := triDecr_nonneg cap0 life hcap
    nlinarith [mul_le_mul_of_nonneg_right hmono hdec]
  · intro i hi
    rw [hhit i hi]
    exact triSeries_ge_bottom cap0 life i hlife hcap hi

/-- C5 witness at `y_start = 2000`, `y_end = 2001`, `life = 2`,
`Capacity(y_start) = 10`: oldest vintage 1999 is at most vintage 2000,
and the oldest is non-negative. -/
theorem triangle_initial_monotone_and_nonneg_witness :
    (setInitial_Triangle (freshMat 2000 2001 2) 2000 10 2 2002).val 1999 2000 ≤
      (setInitial_Triangle (freshMat 2000 2001 2) 2000 10 2 2002).val 2000 2000 ∧
    0 ≤ (setInitial_Triangle (freshMat 2000 2001 2) 2000 10 2 2002).val 1999 2000 := by
  have h := triangle_initial_monotone_and_nonneg 2000 2001 2 10 (by decide)
    (by norm_num) (by decide)
  exact ⟨h.1 0 1 (by decide) (by decide), h.2 0 (by decide)⟩

theorem sum_map_eq_of_eq_off (l : List Int) (f g : Int → ℚ) (a : Int)
    (ha : a ∉ l) (hoff : ∀ x, x ≠ a → g x = f x) :
    (l.map g).sum = (l.map f).sum := by
  rw [List.map_congr_left (fun x hx => hoff x (fun hxa => ha (hxa ▸ hx)))]

theorem sum_map_update_mem (l : List Int) (f g : Int → ℚ) (a : Int)
    (hl : l.Nodup) (ha : a ∈ l) (hoff : ∀ x, x ≠ a → g x = f x) :
    (l.map g).sum = (l.map f).sum - f a + g a := by
  induction l with
  | nil => cases ha
  | cons b t ih =>
    rcases List.mem_cons.mp ha with rfl | hat
    · have hnt : a ∉ t := (List.nodup_cons.mp hl).1
      simp only [List.map_cons, List.sum_cons]
      rw [sum_map_eq_of_eq_off t f g a hnt hoff]
      ring
    · have hba : b ≠ a := by
        rintro rfl
        exact (List.nodup_cons.mp hl).1 hat
      simp only [List.map_cons, List.sum_cons]
      rw [hoff b hba, ih (List.nodup_cons.mp hl).2 hat]
      ring

/-- C1: in the historical allocation step at an observed year `Y` whose
vintage row is still untouched, with
`addition = Capacity(Y) - (matrix column sum at Y)` non-negative, the
allocator stores `addition` constantly over the observation years
`[Y, Y+life-1]` of the new vintage row `Y`, and afterwards the matrix
column sum at `Y` equals the observed `Capacity(Y)`. -/
theorem historical_allocator_nonneg_addition (isObs : Int → Bool) (cap : Int → ℚ)
    (life : ℕ) (Y : Int) (m : CMat)
    (hlife : 1 ≤ life)
    (hobs : isObs Y = true)
    (hfresh : ∀ c, m.val Y c = 0)
    (hnodup : m.rows.Nodup)
    (hadd : 0 ≤ cap Y - m.colSum Y) :
    (∀ c, Y ≤ c → c ≤ Y + (life : Int) - 1 →
      (histYear isObs cap life Y m).val Y c = cap Y - m.colSum Y) ∧
    (histYear isObs cap life Y m).colSum Y = cap Y := by
  have hcond : Y ≤ Y + (life : Int) - 1 := by omega
  have hY : histYear isObs cap life Y m
      = m.write Y Y (Y + (life : Int) - 1) (cap Y - m.colSum Y) := by
    unfold histYear
    rw [if_pos hobs, if_pos hadd]
  have hvalY : ∀ c, Y ≤ c → c ≤ Y + (life : Int) - 1 →
      (m.write Y Y (Y + (life : Int) - 1) (cap Y - m.colSum Y)).val Y c
        = cap Y - m.colSum Y := by
    intro c h1 h2
    rw [CMat.write_val, if_pos ⟨rfl, h1, h2⟩]
  have hoff : ∀ x, x ≠ Y →
      (fun v => (m.write Y Y (Y + (life : Int) - 1) (cap Y - m.colSum Y)).val v Y) x
        = (fun v => m.val v Y) x := by
    intro x hx
    simp only
    rw [CMat.write_val, if_neg]
    rintro ⟨rfl, -, -⟩
    exact hx rfl
  have hS : (m.rows.map fun v => m.val v Y).sum = m.colSum Y := rfl
  refine ⟨fun c h1 h2 => by rw [hY]; exact hvalY c h1 h2, ?_⟩
  rw [hY]
  generalize ha : cap Y - m.colSum Y = a at hvalY hoff ⊢
  by_cases hm : Y ∈ m.rows
  · unfold CMat.colSum
    rw [CMat.write_rows_of_mem m _ _ _ hm]
    rw [sum_map_update_mem m.rows _ _ Y hnodup hm hoff]
    rw [hvalY Y (le_refl Y) hcond]
    simp only [hS, hfresh Y]
    rw [← ha]
    ring
  · unfold CMat.colSum
    have hrows : (m.write Y Y (Y + (life : Int) - 1) a).rows
        = m.rows ++ [Y] := by
      simp [CMat.write, hm]
    rw [hrows, List.map_append, List.sum_append]
    simp only [List.map_cons, List.map_nil, List.sum_cons, List.sum_nil]
    rw [hvalY Y (le_refl Y) hcond, sum_map_eq_of_eq_off m.rows _ _ Y hm hoff]
    simp only [hS]
    rw [← ha]
    ring


/-- C1 witness: allocating at the observed year 2001 on a fresh matrix
stores the addition on the new row and brings the column sum at 2001 to
the observed capacity 5. -/
theorem historical_allocator_nonneg_addition_witness :
    (histYear wObs wCap 2 2001 wMat).val 2001 2001 = wCap 2001 - wMat.colSum 2001 ∧
    (histYear wObs wCap 2 2001 wMat).colSum 2001 = wCap 2001 := by
  have h := historical_allocator_nonneg_addition wObs wCap 2 2001 wMat
    (by decide) (by decide) (fun c => rfl) (by decide)
    (by norm_num [wCap, wMat, CMat.colSum, freshMat, List.range_succ])
  exact ⟨h.1 2001 (by decide) (by decide), h.2⟩

theorem reduceList_val_not_mem (life : ℕ) (yPres : Int) :
    ∀ (l : List Int) (addition : ℚ) (m : CMat) (r : Int), r ∉ l →
      ∀ c, (reduceList life yPres l addition m).val r c = m.val r c := by
  intro l
  induction l with
  | nil =>
    intro addition m r hr c
    rfl
  | cons v t ih =>
    intro addition m r hr c
    have hrv : r ≠ v := fun h => hr (h ▸ List.mem_cons_self v t)
    have hrt : r ∉ t := fun h => hr (List.mem_cons_of_mem v h)
    simp only [reduceList]
    by_cases h1 : 0 < m.val v yPres
    · rw [if_pos h1]
      by_cases h2 : m.val v yPres < |addition|
      · rw [if_pos h2, ih _ _ r hrt c, CMat.write_val, if_neg]
        rintro ⟨rfl, -, -⟩
        exact hrv rfl
      · rw [if_neg h2, CMat.write_val, if_neg]
        rintro ⟨rfl, -, -⟩
        exact hrv rfl
    · rw [if_neg h1]
      exact ih _ _ r hrt c

theorem reduceList_rows (life : ℕ) (yPres : Int) :
    ∀ (l : List Int) (addition : ℚ) (m : CMat), (∀ v ∈ l, v ∈ m.rows) →
      (reduceList life yPres l addition m).rows = m.rows := by
  intro l
  induction l with
  | nil =>
    intro addition m _
    rfl
  | cons v t ih =>
    intro addition m hsub
    have hvm : v ∈ m.rows := hsub v (List.mem_cons_self v t)
    simp only [reduceList]
    by_cases h1 : 0 < m.val v yPres
    · rw [if_pos h1]
      by_cases h2 : m.val v yPres < |addition|
      · rw [if_pos h2, ih _ _ ?_, CMat.write_rows_of_mem m _ _ _ hvm]
        intro w hw
        rw [CMat.write_rows_of_mem m _ _ _ hvm]
        exact hsub w (List.mem_cons_of_mem v hw)
      · rw [if_neg h2]
        exact CMat.write_rows_of_mem m _ _ _ hvm
    · rw [if_neg h1]
      exact ih _ _ fun w hw => hsub w (List.mem_cons_of_mem v hw)

/-- The waterfall absorbs exactly the deficit when the column holds
enough capacity: the processed rows' column sum drops by `-addition`. -/
theorem reduceList_sum (life : ℕ) (Y : Int) :
    ∀ (l : List Int) (addition : ℚ) (m : CMat),
      addition < 0 → l.Nodup →
      (∀ v ∈ l, 0 ≤ m.val v Y) →
      (∀ v ∈ l, 0 < m.val v Y → Y ≤ v + (life : Int) - 1) →
      -addition ≤ (l.map fun v => m.val v Y).sum →
      (l.map fun v => (reduceList life Y l addition m).val v Y).sum
        = (l.map fun v => m.val v Y).sum + addition := by
  intro l
  induction l with
  | nil =>
    intro addition m hneg _ _ _ hsum
    simp only [List.map_nil, List.sum_nil] at hsum ⊢
    linarith
  | cons v t ih =>
    intro addition m hneg hnd hnn hspan hsum
    have hvt : v ∉ t := (List.nodup_cons.mp hnd).1
    have hndt : t.Nodup := (List.nodup_cons.mp hnd).2
    have habs : |addition| = -addition := abs_of_neg hneg
    simp only [List.map_cons, List.sum_cons] at hsum ⊢
    simp only [reduceList]
    by_cases h1 : 0 < m.val v Y
    · have hYle : Y ≤ v + (life : Int) - 1 :=
        hspan v (List.mem_cons_self v t) h1
      rw [if_pos h1]
      by_cases h2 : m.val v Y < |addition|
      · rw [if_pos h2]
        rw [habs] at h2
        have hneg2 : addition + m.val v Y < 0 := by linarith
        have hm1v : ∀ r c, r ≠ v →
            (m.write v Y (v + (life : Int) - 1) 0).val r c = m.val r c := by
          intro r c hr
          rw [CMat.write_val, if_neg]
          rintro ⟨rfl, -, -⟩
          exact hr rfl
        have hm1vY : (m.write v Y (v + (life : Int) - 1) 0).val v Y = 0 := by
          rw [CMat.write_val, if_pos ⟨rfl, le_refl Y, hYle⟩]
        have htsum : (t.map fun w => (m.write v Y (v + (life : Int) - 1) 0).val w Y).sum
            = (t.map fun w => m.val w Y).sum := by
          refine sum_map_eq_of_eq_off t _ _ v hvt ?_
          intro x hx
          exact hm1v x Y hx
        have hres := ih (addition + m.val v Y) (m.write v Y (v + (life : Int) - 1) 0)
          hneg2 hndt
          (fun w hw => by
            rw [hm1v w Y (fun h => hvt (h ▸ hw))]
            exact hnn w (List.mem_cons_of_mem v hw))
          (fun w hw hpos => by
            rw [hm1v w Y (fun h => hvt (h ▸ hw))] at hpos
            exact hspan w (List.mem_cons_of_mem v hw) hpos)
          (by
            rw [htsum]
            linarith)
        rw [reduceList_val_not_mem life Y t _ _ v hvt Y, hm1vY]
        have htres : (t.map fun w =>
            (reduceList life Y t (addition + m.val v Y)
              (m.write v Y (v + (life : Int) - 1) 0)).val w Y).sum
            = (t.map fun w => m.val w Y).sum + (addition + m.val v Y) := by
          rw [hres, htsum]
        rw [htres]
        ring
      · rw [if_neg h2]
        have hv2 : (m.write v Y (v + (life : Int) - 1) (m.val v Y + addition)).val v Y
            = m.val v Y + addition := by
          rw [CMat.write_val, if_pos ⟨rfl, le_refl Y, hYle⟩]
        have htsum : (t.map fun w =>
            (m.write v Y (v + (life : Int) - 1) (m.val v Y + addition)).val w Y).sum
            = (t.map fun w => m.val w Y).sum := by
          refine sum_map_eq_of_eq_off t _ _ v hvt ?_
          intro x hx
          rw [CMat.write_val, if_neg]
          rintro ⟨rfl, -, -⟩
          exact hx rfl
        rw [hv2, htsum]
        ring
    · rw [if_neg h1]
      have hv0 : m.val v Y = 0 :=
        le_antisymm (not_lt.mp h1) (hnn v (List.mem_cons_self v t))
      have hres := ih addition m hneg hndt
        (fun w hw => hnn w (List.mem_cons_of_mem v hw))
        (fun w hw hpos => hspan w (List.mem_cons_of_mem v hw) hpos)
        (by rw [hv0] at hsum; linarith)
      rw [reduceList_val_not_mem life Y t _ _ v hvt Y, hres, hv0]
      ring

/-- When the column holds less than the deficit, the waterfall zeroes
every positive row from `Y` through its scheduled end. -/
theorem reduceList_insufficient (life : ℕ) (Y : Int) :
    ∀ (l : List Int) (addition : ℚ) (m : CMat),
      addition < 0 → l.Nodup →
      (∀ v ∈ l, 0 ≤ m.val v Y) →
      (l.map fun v => m.val v Y).sum < -addition →
      ∀ v ∈ l, 0 < m.val v Y →
        ∀ c, Y ≤ c → c ≤ v + (life : Int) - 1 →
          (reduceList life Y l addition m).val v c = 0 := by
  intro l
  induction l with
  | nil =>
    intro addition m _ _ _ _ v hv
    cases hv
  | cons v t ih =>
    intro addition m hneg hnd hnn hsum w hw hwpos c hc1 hc2
    have hvt : v ∉ t := (List.nodup_cons.mp hnd).1
    have hndt : t.Nodup := (List.nodup_cons.mp hnd).2
    have habs : |addition| = -addition := abs_of_neg hneg
    simp only [List.map_cons, List.sum_cons] at hsum
    have htnn : 0 ≤ (t.map fun x => m.val x Y).sum := by
      refine List.sum_nonneg ?_
      intro x hx
      rw [List.mem_map] at hx
      obtain ⟨y, hy, rfl⟩ := hx
      exact hnn y (List.mem_cons_of_mem v hy)
    simp only [reduceList]
    by_cases h1 : 0 < m.val v Y
    · have h2 : m.val v Y < |addition| := by
        rw [habs]
        linarith
      rw [if_pos h1, if_pos h2]
      have hm1v : ∀ r cc, r ≠ v →
          (m.write v Y (v + (life : Int) - 1) 0).val r cc = m.val r cc := by
        intro r cc hr
        rw [CMat.write_val, if_neg]
        rintro ⟨rfl, -, -⟩
        exact hr rfl
      rcases List.mem_cons.mp hw with rfl | hwt
      · rw [reduceList_val_not_mem life Y t _ _ w hvt c, CMat.write_val,
          if_pos ⟨rfl, hc1, hc2⟩]
      · have hwv : w ≠ v := fun h => hvt (h ▸ hwt)
        have hneg2 : addition + m.val v Y < 0 := by
          rw [habs] at h2
          linarith
        refine ih (addition + m.val v Y) (m.write v Y (v + (life : Int) - 1) 0)
          hneg2 hndt
          (fun x hx => by
            rw [hm1v x Y (fun h => hvt (h ▸ hx))]
            exact hnn x (List.mem_cons_of_mem v hx))
          ?_ w hwt ?_ c hc1 hc2
        · have htsum : (t.map fun x =>
              (m.write v Y (v + (life : Int) - 1) 0).val x Y).sum
              = (t.map fun x => m.val x Y).sum := by
            refine sum_map_eq_of_eq_off t _ _ v hvt ?_
            intro x hx
            exact hm1v x Y hx
          rw [htsum]
          linarith
        · rw [hm1v w Y hwv]
          exact hwpos
    · rw [if_neg h1]
      have hv0 : m.val v Y = 0 :=
        le_antisymm (not_lt.mp h1) (hnn v (List.mem_cons_self v t))
      rcases List.mem_cons.mp hw with rfl | hwt
      · exact absurd hwpos h1
      · refine ih addition m hneg hndt
          (fun x hx => hnn x (List.mem_cons_of_mem v hx)) ?_ w hwt hwpos c hc1 hc2
        rw [hv0] at hsum
        linarith

/-- C2: the waterfall retirement at year `Y` with deficit
`D = -addition > 0` keeps the row index, and (a) when the surviving
column total at `Y` is at least `D`, the column sum drops by exactly
`D`, matching the observed declined capacity; (b) when the total is
smaller than `D`, no error occurs and every row positive at `Y` is
zeroed from `Y` through its scheduled end `vintage+life-1`. -/
theorem retirement_reducer_waterfall (m : CMat) (life : ℕ) (Y : Int) (addition : ℚ)
    (hneg : addition < 0)
    (hnodup : m.rows.Nodup)
    (hnn : ∀ v ∈ m.rows, 0 ≤ m.val v Y)
    (hspan : ∀ v ∈ m.rows, 0 < m.val v Y → Y ≤ v + (life : Int) - 1) :
    ((reduceVintages addition m life Y).rows = m.rows) ∧
    (-addition ≤ m.colSum Y →
      (reduceVintages addition m life Y).colSum Y = m.colSum Y + addition) ∧
    (m.colSum Y < -addition →
      ∀ v ∈ m.rows, 0 < m.val v Y →
        ∀ c, Y ≤ c → c ≤ v + (life : Int) - 1 →
          (reduceVintages addition m life Y).val v c = 0) := by
  have hrows : (reduceVintages addition m life Y).rows = m.rows :=
    reduceList_rows life Y m.rows addition m (fun v hv => hv)
  refine ⟨hrows, ?_, ?_⟩
  · intro hsuff
    unfold CMat.colSum
    rw [hrows]
    exact reduceList_sum life Y m.rows addition m hneg hnodup hnn hspan hsuff
  · intro hinsuf
    exact reduceList_insufficient life Y m.rows addition m hneg hnodup hnn hinsuf


/-- C2 witness: a deficit of 5 at year 2000 against surviving capacity
4 + 6 = 10 reduces the column sum at 2000 by exactly 5, keeping the row
index. -/
theorem retirement_reducer_waterfall_witness :
    (reduceVintages (-5) wRedMat 3 2000).rows = wRedMat.rows ∧
    (reduceVintages (-5) wRedMat 3 2000).colSum 2000 = wRedMat.colSum 2000 + (-5) := by
  have h := retirement_reducer_waterfall wRedMat 3 2000 (-5)
    (by norm_num) (by decide)
    (by
      intro v hv
      fin_cases hv <;> norm_num [wRedMat])
    (by
      intro v hv
      fin_cases hv <;> norm_num [wRedMat])
  refine ⟨h.1, h.2.1 ?_⟩
  norm_num [wRedMat, CMat.colSum]

/-- In a fold of writes at injectively chosen rows, a written row reads
back the stored value inside its slice and the starting value outside. -/
theorem foldl_write_val_row (g lo hi : ℕ → Int) (x : ℕ → ℚ)
    (hg : Function.Injective g) (n : ℕ) (m : CMat) (j : ℕ) (hj : j < n) (c : Int) :
    ((List.range n).foldl (fun m i => m.write (g i) (lo i) (hi i) (x i)) m).val (g j) c
      = if lo j ≤ c ∧ c ≤ hi j then x j else m.val (g j) c := by
  by_cases h : lo j ≤ c ∧ c ≤ hi j
  · rw [if_pos h]
    exact foldl_write_val_of_hit g lo hi x hg n m j c hj h.1 h.2
  · rw [if_neg h]
    refine foldl_write_val_of_miss g lo hi x n m (g j) c ?_
    intro j2 hj2 hcon
    obtain ⟨he, hcon1, hcon2⟩ := hcon
    cases hg he
    exact h ⟨hcon1, hcon2⟩

theorem foldl_write_val_other (g lo hi : ℕ → Int) (x : ℕ → ℚ) (n : ℕ) (m : CMat)
    (r c : Int) (h : ∀ j, j < n → r ≠ g j) :
    ((List.range n).foldl (fun m i => m.write (g i) (lo i) (hi i) (x i)) m).val r c
      = m.val r c := by
  refine foldl_write_val_of_miss g lo hi x n m r c ?_
  intro j hj hcon
  exact h j hj hcon.1

/-- Per-row description of the initial matrix: each row of the initial
span holds one constant on its clipped span, all other cells are
zero. -/
theorem initialState_row_descr (tri : Bool) (yStart yEnd : Int) (life : ℕ)
    (cap0 : ℚ) (hlife : 1 ≤ life) (hcap0 : 0 ≤ cap0) :
    ∀ v : Int, ∃ w : ℚ, 0 ≤ w ∧ ∀ c : Int,
      (initialState tri yStart yEnd life cap0).val v c
        = if yStart - (life : Int) + 1 ≤ v ∧ v ≤ yStart ∧ v ≤ c ∧
            c ≤ min (v + (life : Int) - 1) (yEnd + (life : Int) - 1) then w else 0 := by
  intro v
  by_cases hv : yStart - (life : Int) + 1 ≤ v ∧ v ≤ yStart
  · obtain ⟨hv1, hv2⟩ := hv
    have hj : (v - (yStart - (life : Int) + 1)).toNat < life := by omega
    have hvj : v = yStart - (life : Int) + 1
        + ((v - (yStart - (life : Int) + 1)).toNat : Int) := by omega
    refine ⟨if tri then triSeries cap0 life (v - (yStart - (life : Int) + 1)).toNat
      else heightFlat cap0 life, ?_, ?_⟩
    · by_cases ht : tri = true
      · rw [if_pos ht]
        exact triSeries_ge_bottom cap0 life _ hlife hcap0 hj
      · rw [if_neg ht]
        unfold heightFlat
        positivity
    · intro c
      have hval : (initialState tri yStart yEnd life cap0).val v c
          = if v ≤ c ∧ c ≤ min (v + (life : Int) - 1) (yEnd + (life : Int) - 1) then
              (if tri then triSeries cap0 life (v - (yStart - (life : Int) + 1)).toNat
                else heightFlat cap0 life)
            else 0 := by
        unfold initialState
        by_cases ht : tri = true
        · rw [if_pos ht, if_pos ht]
          unfold setInitial_Triangle
          rw [hvj, foldl_write_val_row _ _ _ _ (initRow_injective yStart life) life
            (freshMat yStart yEnd life) _ hj c]
          rw [← hvj]
          rfl
        · rw [if_neg ht, if_neg ht]
          unfold setInitial_Flat
          rw [hvj, foldl_write_val_row _ _ _ _ (initRow_injective yStart life) life
            (freshMat yStart yEnd life) _ hj c]
          rw [← hvj]
          rfl
      rw [hval]
      refine if_congr ?_ rfl rfl
      constructor
      · rintro ⟨a, b⟩
        exact ⟨hv1, hv2, a, b⟩
      · rintro ⟨-, -, a, b⟩
        exact ⟨a, b⟩
  · refine ⟨0, le_refl 0, ?_⟩
    intro c
    have hval : (initialState tri yStart yEnd life cap0).val v c = 0 := by
      have hother : ∀ j : ℕ, j < life →
          v ≠ yStart - (life : Int) + 1 + (j : Int) := by
        intro j hjj heq
        exact hv (by omega)
      unfold initialState
      by_cases ht : tri = true
      · rw [if_pos ht]
        unfold setInitial_Triangle
        rw [foldl_write_val_other _ _ _ _ life (freshMat yStart yEnd life) v c hother]
        rfl
      · rw [if_neg ht]
        unfold setInitial_Flat
        rw [foldl_write_val_other _ _ _ _ life (freshMat yStart yEnd life) v c hother]
        rfl
    rw [hval, ite_self]

/-- The initial matrix satisfies the row-structure invariant for any
processing year strictly after `y_start`. -/
theorem initialState_rowInv (tri : Bool) (yStart yEnd : Int) (life : ℕ)
    (cap0 : ℚ) (yNext : Int) (hlife : 1 ≤ life) (hcap0 : 0 ≤ cap0)
    (hnext : yStart < yNext) :
    RowInv life yNext (initialState tri yStart yEnd life cap0) := by
  have hrow := initialState_row_descr tri yStart yEnd life cap0 hlife hcap0
  refine ⟨?_, ?_, ?_, ?_, ?_⟩
  · intro v c
    obtain ⟨w, hw, hv⟩ := hrow v
    rw [hv c]
    split_ifs
    · exact hw
    · exact le_refl 0
  · intro v c hc
    obtain ⟨w, hw, hv⟩ := hrow v
    rw [hv c, if_neg]
    rintro ⟨-, -, a, -⟩
    omega
  · intro v c hc
    obtain ⟨w, hw, hv⟩ := hrow v
    rw [hv c, if_neg]
    rintro ⟨-, -, -, b⟩
    omega
  · intro v c d hvc hcd
    obtain ⟨w, hw, hv⟩ := hrow v
    rw [hv c, hv d]
    split_ifs with hd hc hc
    · exact le_refl w
    · exact absurd ⟨hd.1, hd.2.1, by omega, by omega⟩ hc
    · exact hw
    · exact le_refl 0
  · intro v c hvn
    obtain ⟨w, hw, hv⟩ := hrow v
    rw [hv c, if_neg]
    rintro ⟨-, b, -, -⟩
    omega

/-- Writing a non-negative constant over the slice `[Y, Y+life-1]` of
the still-untouched row `Y` advances the row-structure invariant to the
next year. -/
theorem rowInv_write_new (m : CMat) (life : ℕ) (Y : Int) (a : ℚ)
    (hinv : RowInv life Y m) (ha : 0 ≤ a) :
    RowInv life (Y + 1) (m.write Y Y (Y + (life : Int) - 1) a) := by
  obtain ⟨h1, h2, h3, h4, h5⟩ := hinv
  have hrowY : ∀ e, m.val Y e = 0 := fun e => h5 Y e (le_refl Y)
  refine ⟨?_, ?_, ?_, ?_, ?_⟩
  · intro v c
    rw [CMat.write_val]
    split_ifs
    · exact ha
    · exact h1 v c
  · intro v c hc
    rw [CMat.write_val, if_neg]
    · exact h2 v c hc
    · rintro ⟨rfl, hc1, -⟩
      omega
  · intro v c hc
    rw [CMat.write_val, if_neg]
    · exact h3 v c hc
    · rintro ⟨rfl, -, hc2⟩
      omega
  · intro v c d hvc hcd
    by_cases hvY : v = Y
    · subst hvY
      rw [CMat.write_val, CMat.write_val]
      split_ifs with hd hc hc
      · exact le_refl a
      · exact absurd ⟨rfl, by omega, by omega⟩ hc
      · rw [hrowY d]
        exact ha
      · rw [hrowY c, hrowY d]
    · rw [CMat.write_val, CMat.write_val, if_neg, if_neg]
      · exact h4 v c d hvc hcd
      · rintro ⟨rfl, -, -⟩
        exact hvY rfl
      · rintro ⟨rfl, -, -⟩
        exact hvY rfl
  · intro v c hvn
    rw [CMat.write_val, if_neg]
    · exact h5 v c (by omega)
    · rintro ⟨rfl, -, -⟩
      omega

/-- A waterfall write — a suffix `[Y, v+life-1]` of a row positive at
`Y`, overwritten with a value between `0` and the previous value —
preserves the row-structure invariant. -/
theorem rowInv_write_suffix (m : CMat) (life : ℕ) (yN : Int) (v Y : Int) (x : ℚ)
    (hinv : RowInv life yN m) (hYn : Y < yN) (hpos : 0 < m.val v Y) (hx0 : 0 ≤ x)
    (hxle : x ≤ m.val v Y) :
    RowInv life yN (m.write v Y (v + (life : Int) - 1) x) := by
  obtain ⟨h1, h2, h3, h4, h5⟩ := hinv
  have hvY : v ≤ Y := by
    by_contra hc
    rw [h2 v Y (by omega)] at hpos
    exact lt_irrefl 0 hpos
  have hYe : Y ≤ v + (life : Int) - 1 := by
    by_contra hc
    rw [h3 v Y (by omega)] at hpos
    exact lt_irrefl 0 hpos
  have hvn : v < yN := by
    by_contra hc
    rw [h5 v Y (by omega)] at hpos
    exact lt_irrefl 0 hpos
  refine ⟨?_, ?_, ?_, ?_, ?_⟩
  · intro r c
    rw [CMat.write_val]
    split_ifs
    · exact hx0
    · exact h1 r c
  · intro r c hc
    rw [CMat.write_val, if_neg]
    · exact h2 r c hc
    · rintro ⟨rfl, hc1, -⟩
      omega
  · intro r c hc
    rw [CMat.write_val, if_neg]
    · exact h3 r c hc
    · rintro ⟨rfl, -, hc2⟩
      omega
  · intro r c d hrc hcd
    by_cases hrv : r = v
    · subst hrv
      rw [CMat.write_val, CMat.write_val]
      split_ifs with hd hc hc
      · exact le_refl x
      · have hcY : c < Y := by omega
        calc x ≤ m.val r Y := hxle
          _ ≤ m.val r c := h4 r c Y hrc (by omega)
      · rw [h3 r d (by omega)]
        exact hx0
      · exact h4 r c d hrc hcd
    · rw [CMat.write_val, CMat.write_val, if_neg, if_neg]
      · exact h4 r c d hrc hcd
      · rintro ⟨rfl, -, -⟩
        exact hrv rfl
      · rintro ⟨rfl, -, -⟩
        exact hrv rfl
  · intro r c hrn
    rw [CMat.write_val, if_neg]
    · exact h5 r c hrn
    · rintro ⟨rfl, -, -⟩
      omega

theorem rowInv_reduceList (life : ℕ) (Y : Int) :
    ∀ (l : List Int) (addition : ℚ) (m : CMat), addition ≤ 0 →
      RowInv life (Y + 1) m → RowInv life (Y + 1) (reduceList life Y l addition m) := by
  intro l
  induction l with
  | nil =>
    intro addition m _ hinv
    exact hinv
  | cons v t ih =>
    intro addition m haddle hinv
    have habs : |addition| = -addition := abs_of_nonpos haddle
    simp only [reduceList]
    by_cases h1 : 0 < m.val v Y
    · rw [if_pos h1]
      by_cases h2 : m.val v Y < |addition|
      · rw [if_pos h2]
        refine ih (addition + m.val v Y) _ ?_ ?_
        · rw [habs] at h2
          linarith
        · exact rowInv_write_suffix m life (Y + 1) v Y 0 hinv (by omega) h1
            (le_refl 0) (le_of_lt h1)
      · rw [if_neg h2]
        rw [habs, not_lt] at h2
        refine rowInv_write_suffix m life (Y + 1) v Y _ hinv (by omega) h1 ?_ ?_
        · linarith
        · linarith
    · rw [if_neg h1]
      exact ih addition m haddle hinv

/-- One allocator year advances the row-structure invariant from `Y` to
`Y + 1`, whichever branch runs. -/
theorem rowInv_histYear (isObs : Int → Bool) (cap : Int → ℚ) (life : ℕ) (Y : Int)
    (m : CMat) (hinv : RowInv life Y m) :
    RowInv life (Y + 1) (histYear isObs cap life Y m) := by
  unfold histYear
  by_cases ho : isObs Y = true
  · rw [if_pos ho]
    by_cases hadd : 0 ≤ cap Y - m.colSum Y
    · rw [if_pos hadd]
      exact rowInv_write_new m life Y _ hinv hadd
    · rw [if_neg hadd]
      unfold reduceVintages
      refine rowInv_reduceList life Y _ _ _ (le_of_lt (not_le.mp hadd)) ?_
      exact rowInv_write_new m life Y 0 hinv (le_refl 0)
  · rw [if_neg ho]
    exact rowInv_write_new m life Y 0 hinv (le_refl 0)

theorem histSteps_succ (isObs : Int → Bool) (cap : Int → ℚ) (life : ℕ)
    (y1 : Int) (k : ℕ) (m : CMat) :
    histSteps isObs cap life y1 (k + 1) m
      = histYear isObs cap life (y1 + (k : Int)) (histSteps isObs cap life y1 k m) := by
  unfold histSteps
  rw [List.range_succ, List.foldl_append]
  simp

theorem rowInv_histSteps (isObs : Int → Bool) (cap : Int → ℚ) (life : ℕ)
    (y1 : Int) (m0 : CMat) (hinv : RowInv life y1 m0) :
    ∀ k : ℕ, RowInv life (y1 + (k : Int)) (histSteps isObs cap life y1 k m0) := by
  intro k
  induction k with
  | zero => simpa using hinv
  | succ k ih =>
    rw [histSteps_succ]
    have hstep := rowInv_histYear isObs cap life (y1 + (k : Int)) _ ih
    have hc : y1 + ((k + 1 : ℕ) : Int) = y1 + (k : Int) + 1 := by
      push_cast
      ring
    rw [hc]
    exact hstep

theorem CMat.write_nonneg (m : CMat) (v lo hi : Int) (x : ℚ)
    (hm : ∀ r c, 0 ≤ m.val r c) (hx : 0 ≤ x) :
    ∀ r c, 0 ≤ (m.write v lo hi x).val r c := by
  intro r c
  rw [CMat.write_val]
  split_ifs
  · exact hx
  · exact hm r c

theorem reduceList_nonneg (life : ℕ) (Y : Int) :
    ∀ (l : List Int) (addition : ℚ) (m : CMat), (∀ r c, 0 ≤ m.val r c) →
      ∀ r c, 0 ≤ (reduceList life Y l addition m).val r c := by
  intro l
  induction l with
  | nil =>
    intro addition m hm r c
    exact hm r c
  | cons v t ih =>
    intro addition m hm r c
    simp only [reduceList]
    by_cases h1 : 0 < m.val v Y
    · rw [if_pos h1]
      by_cases h2 : m.val v Y < |addition|
      · rw [if_pos h2]
        exact ih _ _ (CMat.write_nonneg m _ _ _ _ hm (le_refl 0)) r c
      · rw [if_neg h2]
        refine CMat.write_nonneg m _ _ _ _ hm ?_ r c
        rw [not_lt] at h2
        have := (abs_le.mp h2).1
        linarith
    · rw [if_neg h1]
      exact ih _ _ hm r c

theorem histYear_nonneg (isObs : Int → Bool) (cap : Int → ℚ) (life : ℕ) (Y : Int)
    (m : CMat) (hm : ∀ r c, 0 ≤ m.val r c) :
    ∀ r c, 0 ≤ (histYear isObs cap life Y m).val r c := by
  unfold histYear
  by_cases ho : isObs Y = true
  · rw [if_pos ho]
    by_cases hadd : 0 ≤ cap Y - m.colSum Y
    · rw [if_pos hadd]
      exact CMat.write_nonneg m _ _ _ _ hm hadd
    · rw [if_neg hadd]
      unfold reduceVintages
      exact reduceList_nonneg life Y _ _ _
        (CMat.write_nonneg m _ _ _ _ hm (le_refl 0))
  · rw [if_neg ho]
    exact CMat.write_nonneg m _ _ _ _ hm (le_refl 0)

theorem initialState_nonneg (tri : Bool) (yStart yEnd : Int) (life : ℕ)
    (cap0 : ℚ) (hlife : 1 ≤ life) (hcap0 : 0 ≤ cap0) :
    ∀ r c, 0 ≤ (initialState tri yStart yEnd life cap0).val r c :=
  (initialState_rowInv tri yStart yEnd life cap0 (yStart + 1) hlife hcap0
    (by omega)).1

/-- C6: with non-negative observed capacities and a positive lifetime,
no operation ever writes a negative value: after the initial
distribution and after every allocator year (including its retirement
reductions), every matrix cell is non-negative. -/
theorem matrix_cells_never_negative (tri : Bool) (isObs : Int → Bool)
    (cap : Int → ℚ) (yStart yEnd y1 : Int) (life : ℕ) (cap0 : ℚ)
    (hlife : 1 ≤ life) (hcap0 : 0 ≤ cap0) :
    ∀ (k : ℕ) (v c : Int),
      0 ≤ (histSteps isObs cap life y1 k (initialState tri yStart yEnd life cap0)).val v c := by
  intro k
  induction k with
  | zero =>
    exact initialState_nonneg tri yStart yEnd life cap0 hlife hcap0
  | succ k ih =>
    rw [histSteps_succ]
    exact histYear_nonneg isObs cap life _ _ ih

/-- C6 witness: after one allocator year on the flat-initialised
witness partition, the new vintage cell is non-negative. -/
theorem matrix_cells_never_negative_witness :
    0 ≤ (histSteps wObs wCap 2 2001 1 (initialState false 2000 2000 2 5)).val 2001 2001 :=
  matrix_cells_never_negative false wObs wCap 2000 2000 2001 2 5 (by decide)
    (by norm_num) 1 2001 2001

/-- C7: at every point of the computation, the non-zero cells of a
vintage row lie between the vintage year and its hard expiry
`vintage+life-1`, and they form a single contiguous interval: a
non-zero cell between two non-zero cells is non-zero. -/
theorem vintage_spans_contiguous (tri : Bool) (isObs : Int → Bool)
    (cap : Int → ℚ) (yStart yEnd y1 : Int) (life : ℕ) (cap0 : ℚ)
    (hlife : 1 ≤ life) (hcap0 : 0 ≤ cap0) (hy1 : yStart < y1) :
    ∀ (k : ℕ) (v : Int),
      (∀ c, (histSteps isObs cap life y1 k
          (initialState tri yStart yEnd life cap0)).val v c ≠ 0 →
        v ≤ c ∧ c ≤ v + (life : Int) - 1) ∧
      (∀ c1 c2 c3, c1 ≤ c2 → c2 ≤ c3 →
        (histSteps isObs cap life y1 k
          (initialState tri yStart yEnd life cap0)).val v c1 ≠ 0 →
        (histSteps isObs cap life y1 k
          (initialState tri yStart yEnd life cap0)).val v c3 ≠ 0 →
        (histSteps isObs cap life y1 k
          (initialState tri yStart yEnd life cap0)).val v c2 ≠ 0) := by
  intro k v
  obtain ⟨h1, h2, h3, h4, h5⟩ := rowInv_histSteps isObs cap life y1 _
    (initialState_rowInv tri yStart yEnd life cap0 y1 hlife hcap0 hy1) k
  constructor
  · intro c hne
    constructor
    · by_contra hc
      exact hne (h2 v c (by omega))
    · by_contra hc
      exact hne (h3 v c (by omega))
  · intro c1 c2 c3 h12 h23 hne1 hne3
    have hv1 : v ≤ c1 := by
      by_contra hc
      exact hne1 (h2 v c1 (by omega))
    have hpos3 : 0 < (histSteps isObs cap life y1 k
        (initialState tri yStart yEnd life cap0)).val v c3 :=
      lt_of_le_of_ne (h1 v c3) (Ne.symm hne3)
    have hmono := h4 v c2 c3 (by omega) h23
    intro hzero
    rw [hzero] at hmono
    exact absurd (lt_of_lt_of_le hpos3 hmono) (lt_irrefl 0)

/-- C7 witness: on the witness partition, the cell of vintage row 2001
at observation year 1999 (before the vintage year) is zero — forced by
the span bounds. -/
theorem vintage_spans_contiguous_witness :
    (histSteps wObs wCap 2 2001 1 (initialState false 2000 2000 2 5)).val 2001 1999 = 0 := by
  by_contra hne
  have h := (vintage_spans_contiguous false wObs wCap 2000 2000 2001 2 5
    (by decide) (by norm_num) (by decide) 1 2001).1 1999 hne
  omega

theorem deriveFold_from_error (lifetable : String → Option ℕ) (baseYear : Int) :
    ∀ (parts : List StatPartition) (e : DeriveError),
      parts.foldl
        (fun (acc : Except DeriveError (List VintageCohort)) p =>
          acc.bind fun done => (derivePartition lifetable baseYear p).map
            fun added => done ++ added)
        (.error e) = .error e := by
  intro parts
  induction parts with
  | nil =>
    intro e
    rfl
  | cons q rest ih =>
    intro e
    simp only [List.foldl_cons]
    exact ih e

/-- An exception in any partition aborts the whole
`derive_vintage_cohorts_from_statistics` call. -/
theorem derive_aborts_on_member_error (lifetable : String → Option ℕ)
    (baseYear : Int) :
    ∀ (parts : List StatPartition) (p : StatPartition), p ∈ parts →
      (∃ e0, derivePartition lifetable baseYear p = .error e0) →
      ∃ e, derive_vintage_cohorts_from_statistics lifetable parts baseYear
        = .error e := by
  have hfold : ∀ (parts : List StatPartition) (p : StatPartition), p ∈ parts →
      (∃ e0, derivePartition lifetable baseYear p = .error e0) →
      ∀ acc : Except DeriveError (List VintageCohort),
        ∃ e, parts.foldl
          (fun (acc : Except DeriveError (List VintageCohort)) p =>
            acc.bind fun done => (derivePartition lifetable baseYear p).map
              fun added => done ++ added) acc = .error e := by
    intro parts
    induction parts with
    | nil =>
      intro p hp
      cases hp
    | cons q rest ih =>
      intro p hp herr acc
      match acc with
      | .error e =>
        exact ⟨e, deriveFold_from_error lifetable baseYear (q :: rest) e⟩
      | .ok done =>
        rcases List.mem_cons.mp hp with rfl | hprest
        · obtain ⟨e0, he0⟩ := herr
          refine ⟨e0, ?_⟩
          simp only [List.foldl_cons, Except.bind, he0, Except.map]
          exact deriveFold_from_error lifetable baseYear rest e0
        · simp only [List.foldl_cons]
          exact ih p hprest herr _
  intro parts p hp herr
  obtain ⟨e, he⟩ := hfold parts p hp herr (.ok [])
  refine ⟨e, ?_⟩
  unfold derive_vintage_cohorts_from_statistics
  rw [he]
  rfl

/-- C8: a partition whose fuel type has no entry in the lifetime table
makes `derive_vintage_cohorts_from_statistics` fail with the
configuration error naming the offending fuel type; the failure happens
before any output for the partition exists, and any call whose input
contains such a partition aborts with an error instead of returning a
result. -/
theorem missing_lifetime_entry_fails (lifetable : String → Option ℕ)
    (baseYear : Int) (p : StatPartition) (hne : p.obsYears ≠ [])
    (hmiss : lifetable p.fueltype = none) :
    derivePartition lifetable baseYear p
      = .error (.configurationError p.fueltype) ∧
    ∀ parts : List StatPartition, p ∈ parts →
      ∃ e, derive_vintage_cohorts_from_statistics lifetable parts baseYear
        = .error e := by
  have hpart : derivePartition lifetable baseYear p
      = .error (.configurationError p.fueltype) := by
    rcases hl : p.obsYears with - | ⟨y0, rest⟩
    · exact absurd hl hne
    · simp only [derivePartition, hl, hmiss]
  refine ⟨hpart, ?_⟩
  intro parts hp
  exact derive_aborts_on_member_error lifetable baseYear parts p hp ⟨_, hpart⟩


/-- C8 witness: the missing "Natural Gas" lifetime entry aborts both
the partition and the whole call. -/
theorem missing_lifetime_entry_fails_witness :
    derivePartition wNoLifetable 2000 wGasPartition
      = .error (.configurationError "Natural Gas") ∧
    ∃ e, derive_vintage_cohorts_from_statistics wNoLifetable [wGasPartition] 2000
      = .error e := by
  have h := missing_lifetime_entry_fails wNoLifetable 2000 wGasPartition
    (by decide) rfl
  exact ⟨h.1, h.2 [wGasPartition] (List.mem_cons_self _ _)⟩

/-- C10: a `base_year` outside a partition's matrix columns
`[y_start-life+1, y_end+life-1]` makes the extraction raise the lookup
error, and a call whose input contains such a partition fails as a
whole rather than returning an empty or partial result. -/
theorem base_year_outside_columns_fails (lifetable : String → Option ℕ)
    (baseYear : Int) (p : StatPartition) (life : ℕ) (hne : p.obsYears ≠ [])
    (hlife : lifetable p.fueltype = some life)
    (hout : baseYear < yStartOf p - (life : Int) + 1 ∨
      yEndOf p + (life : Int) - 1 < baseYear) :
    derivePartition lifetable baseYear p = .error (.keyError baseYear) ∧
    ∀ parts : List StatPartition, p ∈ parts →
      ∃ e, derive_vintage_cohorts_from_statistics lifetable parts baseYear
        = .error e := by
  have hpart : derivePartition lifetable baseYear p
      = .error (.keyError baseYear) := by
    rcases hl : p.obsYears with - | ⟨y0, rest⟩
    · exact absurd hl hne
    · have hstart : yStartOf p = y0 := by
        rw [yStartOf, hl]
        rfl
      have hend : yEndOf p = List.getLastD (y0 :: rest) 0 := by
        rw [yEndOf, hl]
      rw [hstart] at hout
      rw [hend] at hout
      simp only [derivePartition, hl, hlife]
      rw [if_neg]
      omega
  refine ⟨hpart, ?_⟩
  intro parts hp
  exact derive_aborts_on_member_error lifetable baseYear parts p hp ⟨_, hpart⟩


/-- C10 witness: `base_year = 1990` lies before the matrix columns
`[1998, 2002]` of the witness partition, so the whole call errors. -/
theorem base_year_outside_columns_fails_witness :
    derivePartition wLifetable 1990 wGasPartition = .error (.keyError 1990) ∧
    ∃ e, derive_vintage_cohorts_from_statistics wLifetable [wGasPartition] 1990
      = .error e := by
  have h := base_year_outside_columns_fails wLifetable 1990 wGasPartition 3
    (by decide) rfl (by left; decide)
  exact ⟨h.1, h.2 [wGasPartition] (List.mem_cons_self _ _)⟩

theorem histYearLog_snd (isObs : Int → Bool) (cap : Int → ℚ) (life : ℕ)
    (yF : Int) :
    ∀ (l : List ℕ) (s : CMat × List String),
      (l.foldl (fun s (i : ℕ) => histYearLog isObs cap life (yF + (i : Int)) s) s).2
        = s.2 := by
  intro l
  induction l with
  | nil =>
    intro s
    rfl
  | cons i t ih =>
    intro s
    simp only [List.foldl_cons]
    exact ih _

/-- `setHistorical` emits no warning: its explicit log stays empty. -/
theorem setHistoricalLog_empty (mat : CMat) (isObs : Int → Bool) (cap : Int → ℚ)
    (life : ℕ) (yFirst yMax : Int) :
    (setHistoricalLog mat isObs cap life yFirst yMax).2 = [] := by
  unfold setHistoricalLog
  exact histYearLog_snd isObs cap life yFirst _ _

/-- C9 (amended): a visited year with no observed statistic is a pure
zero-addition year — the allocator writes the zero slice on the year's
own vintage row, leaves every other row's cells unchanged, and the
computation continues (and logs no warning, since `setHistorical`
contains no logging call). -/
theorem gap_year_zero_addition (isObs : Int → Bool) (cap : Int → ℚ)
    (life : ℕ) (Y : Int) (m : CMat) (hobs : isObs Y = false) :
    (∀ c, Y ≤ c → c ≤ Y + (life : Int) - 1 →
      (histYear isObs cap life Y m).val Y c = 0) ∧
    (∀ v c, v ≠ Y → (histYear isObs cap life Y m).val v c = m.val v c) ∧
    (∀ (mat : CMat) (yF yM : Int),
      (setHistoricalLog mat isObs cap life yF yM).2 = []) := by
  have hY : histYear isObs cap life Y m
      = m.write Y Y (Y + (life : Int) - 1) 0 := by
    unfold histYear
    rw [if_neg]
    simp [hobs]
  refine ⟨?_, ?_, fun mat yF yM => setHistoricalLog_empty mat isObs cap life yF yM⟩
  · intro c h1 h2
    rw [hY, CMat.write_val, if_pos ⟨rfl, h1, h2⟩]
  · intro v c hv
    rw [hY, CMat.write_val, if_neg]
    rintro ⟨rfl, -, -⟩
    exact hv rfl

/-- C9 amended-theorem witness at the unobserved year 2000 of the
witness inputs. -/
theorem gap_year_zero_addition_witness :
    (histYear wObs wCap 2 2000 wMat).val 2000 2000 = 0 ∧
    (histYear wObs wCap 2 2000 wMat).val 1999 2000 = wMat.val 1999 2000 ∧
    (setHistoricalLog wMat wObs wCap 2 2001 2002).2 = [] := by
  have h := gap_year_zero_addition wObs wCap 2 2000 wMat (by decide)
  exact ⟨h.1 2000 (by decide) (by decide), h.2.1 1999 2000 (by decide),
    h.2.2 wMat 2001 2002⟩

/-- The allocator's statistic-present, non-negative-addition branch in
equation form. -/
theorem histYear_obs_nonneg_eq (isObs : Int → Bool) (cap : Int → ℚ) (life : ℕ)
    (Y : Int) (m : CMat) (hobs : isObs Y = true) (hadd : 0 ≤ cap Y - m.colSum Y) :
    histYear isObs cap life Y m
      = m.write Y Y (Y + (life : Int) - 1) (cap Y - m.colSum Y) := by
  unfold histYear
  rw [if_pos hobs, if_pos hadd]

theorem scenMat1_colSum_2001 : scenMat1.colSum 2001 = 200 / 3 := by
  norm_num [CMat.colSum, show scenMat1.rows = [1998, 1999, 2000, 2001] from rfl,
    show scenMat1.val 1999 2001 = heightFlat (scenCap 2000) 3 from rfl,
    show scenMat1.val 2000 2001 = heightFlat (scenCap 2000) 3 from rfl,
    show scenMat1.val 1998 2001 = 0 from rfl,
    show scenMat1.val 2001 2001 = 0 from rfl,
    heightFlat, scenCap]

theorem scenMat2_eq : scenMat2 = scenMat1.write 2001 2001 (2001 + ((3 : ℕ) : Int) - 1)
    (scenCap 2001 - scenMat1.colSum 2001) :=
  histYear_obs_nonneg_eq scenObs scenCap 3 2001 scenMat1 rfl
    (by rw [scenMat1_colSum_2001]; norm_num [scenCap])

theorem scenMat2_rows : scenMat2.rows = [1998, 1999, 2000, 2001] := by
  rw [scenMat2_eq, CMat.write_rows_of_mem]
  · rfl
  · rw [show scenMat1.rows = [1998, 1999, 2000, 2001] from rfl]
    decide

theorem scenMat2_val_2001 : scenMat2.val 2001 2002 = 160 / 3 := by
  rw [scenMat2_eq, CMat.write_val, if_pos ⟨rfl, by norm_num, by norm_num⟩,
    scenMat1_colSum_2001]
  norm_num [scenCap]

theorem scenMat2_val_2000 : scenMat2.val 2000 2002 = heightFlat (scenCap 2000) 3 := by
  rw [scenMat2_eq, CMat.write_val, if_neg]
  · rfl
  · rintro ⟨h, -, -⟩
    exact absurd h (by norm_num)

theorem scenMat2_val_off : ∀ v : Int, v ≠ 2001 →
    scenMat2.val v 2002 = scenMat1.val v 2002 := by
  intro v hv
  rw [scenMat2_eq, CMat.write_val, if_neg]
  rintro ⟨rfl, -, -⟩
  exact hv rfl

theorem scenMat2_colSum_2002 : scenMat2.colSum 2002 = 260 / 3 := by
  norm_num [CMat.colSum, scenMat2_rows,
    scenMat2_val_off 1998 (by norm_num), scenMat2_val_off 1999 (by norm_num),
    scenMat2_val_off 2000 (by norm_num),
    show scenMat1.val 1998 2002 = 0 from rfl,
    show scenMat1.val 1999 2002 = 0 from rfl,
    show scenMat1.val 2000 2002 = heightFlat (scenCap 2000) 3 from rfl,
    scenMat2_val_2001, heightFlat, scenCap]

theorem scenMat3_eq : scenMat3 = scenMat2.write 2002 2002 (2002 + ((3 : ℕ) : Int) - 1)
    (scenCap 2002 - scenMat2.colSum 2002) :=
  histYear_obs_nonneg_eq scenObs scenCap 3 2002 scenMat2 rfl
    (by rw [scenMat2_colSum_2002]; norm_num [scenCap])

theorem scenMat3_rows : scenMat3.rows = [1998, 1999, 2000, 2001, 2002] := by
  rw [scenMat3_eq]
  show (if (2002 : Int) ∈ scenMat2.rows then scenMat2.rows else scenMat2.rows ++ [2002])
    = [1998, 1999, 2000, 2001, 2002]
  rw [scenMat2_rows]
  decide

theorem scenMat3_val_2002 : scenMat3.val 2002 2002 = 10 / 3 := by
  rw [scenMat3_eq, CMat.write_val, if_pos ⟨rfl, by norm_num, by norm_num⟩,
    scenMat2_colSum_2002]
  norm_num [scenCap]

theorem scenMat3_val_off : ∀ v : Int, v ≠ 2002 →
    scenMat3.val v 2002 = scenMat2.val v 2002 := by
  intro v hv
  rw [scenMat3_eq, CMat.write_val, if_neg]
  rintro ⟨rfl, -, -⟩
  exact hv rfl

theorem scenario_extract_eval :
    extractCohorts scenarioPartition scenMat3 2002
      = [ { country := "DE", technology := "Onshore", fueltype := "Hard Coal",
            setName := "PP", yearCommissioned := 2000, capacity := 100 / 3 },
          { country := "DE", technology := "Onshore", fueltype := "Hard Coal",
            setName := "PP", yearCommissioned := 2001, capacity := 160 / 3 },
          { country := "DE", technology := "Onshore", fueltype := "Hard Coal",
            setName := "PP", yearCommissioned := 2002, capacity := 10 / 3 } ] := by
  have e1998 : scenMat3.val 1998 2002 = 0 := by
    rw [scenMat3_val_off 1998 (by norm_num), scenMat2_val_off 1998 (by norm_num)]
    rfl
  have e1999 : scenMat3.val 1999 2002 = 0 := by
    rw [scenMat3_val_off 1999 (by norm_num), scenMat2_val_off 1999 (by norm_num)]
    rfl
  have e2000 : scenMat3.val 2000 2002 = 100 / 3 := by
    rw [scenMat3_val_off 2000 (by norm_num), scenMat2_val_2000]
    norm_num [heightFlat, scenCap]
  have e2001 : scenMat3.val 2001 2002 = 160 / 3 := by
    rw [scenMat3_val_off 2001 (by norm_num), scenMat2_val_2001]
  norm_num [extractCohorts, scenMat3_rows, e1998, e1999, e2000, e2001,
    scenMat3_val_2002, scenarioPartition, List.filter_cons]

/-- C3: on the worked scenario — one flat-policy partition, `life = 3`,
observed capacities 100, 120, 90 in 2000..2002 — extraction at
`base_year = 2002` yields exactly the cohorts 2000 ↦ 100/3,
2001 ↦ 120 − 2·(100/3), 2002 ↦ 90 − (120 − 100/3), and no other rows;
the three capacities sum to 90. -/
theorem scenario_cohorts_exact :
    derive_vintage_cohorts_from_statistics scenarioLifetable [scenarioPartition] 2002
      = .ok [ { country := "DE", technology := "Onshore", fueltype := "Hard Coal",
                setName := "PP", yearCommissioned := 2000, capacity := 100 / 3 },
              { country := "DE", technology := "Onshore", fueltype := "Hard Coal",
                setName := "PP", yearCommissioned := 2001,
                capacity := 120 - 2 * (100 / 3) },
              { country := "DE", technology := "Onshore", fueltype := "Hard Coal",
                setName := "PP", yearCommissioned := 2002,
                capacity := 90 - (120 - 100 / 3) } ] ∧
    (100 / 3 : ℚ) + (120 - 2 * (100 / 3)) + (90 - (120 - 100 / 3)) = 90 := by
  constructor
  · have hd : derivePartition scenarioLifetable 2002 scenarioPartition
        = .ok (extractCohorts scenarioPartition scenMat3 2002) := rfl
    unfold derive_vintage_cohorts_from_statistics
    simp only [List.foldl_cons, List.foldl_nil, hd, scenario_extract_eval,
      Except.bind, Except.map, List.nil_append]
    norm_num [npIsClose0, List.filter_cons]
    rw [if_pos (show (1 : ℚ) / 100000000 < |100 / 3| from by
        rw [abs_of_pos] <;> norm_num),
      if_pos (show (1 : ℚ) / 100000000 < |160 / 3| from by
        rw [abs_of_pos] <;> norm_num),
      if_pos (show (1 : ℚ) / 100000000 < |10 / 3| from by
        rw [abs_of_pos] <;> norm_num)]
  · norm_num

theorem gapMat1_colSum_2002 : gapMat1.colSum 2002 = 0 := by
  norm_num [CMat.colSum, show gapMat1.rows = [2000, 2001] from rfl,
    show gapMat1.val 2000 2002 = 0 from rfl,
    show gapMat1.val 2001 2002 = 0 from rfl]

theorem gapMat2_eq : gapMat2 = gapMat1.write 2002 2002 (2002 + ((1 : ℕ) : Int) - 1)
    (gapCap 2002 - gapMat1.colSum 2002) :=
  histYear_obs_nonneg_eq gapObs gapCap 1 2002 gapMat1 rfl
    (by rw [gapMat1_colSum_2002]; norm_num [gapCap])

theorem gapMat2_rows : gapMat2.rows = [2000, 2001, 2002] := by
  rw [gapMat2_eq]
  show (if (2002 : Int) ∈ gapMat1.rows then gapMat1.rows else gapMat1.rows ++ [2002])
    = [2000, 2001, 2002]
  rw [show gapMat1.rows = [2000, 2001] from rfl]
  decide

theorem gapMat2_val_2002 : gapMat2.val 2002 2002 = 7 := by
  rw [gapMat2_eq, CMat.write_val, if_pos ⟨rfl, by norm_num, by norm_num⟩,
    gapMat1_colSum_2002]
  norm_num [gapCap]

theorem gapMat2_val_off : ∀ v : Int, v ≠ 2002 →
    gapMat2.val v 2002 = gapMat1.val v 2002 := by
  intro v hv
  rw [gapMat2_eq, CMat.write_val, if_neg]
  rintro ⟨rfl, -, -⟩
  exact hv rfl

/-- C9 counterexample: the gap partition (observed years 2000 and 2002,
gap at 2001) is processed to completion — the call returns a normal
result — while the explicit warning log of its `setHistorical` run is
empty: no warning is logged for the gap, contrary to the claim. -/
theorem gap_year_warning_counterexample :
    derive_vintage_cohorts_from_statistics gapLifetable [gapPartition] 2002
      = .ok [ { country := "DE", technology := "Onshore", fueltype := "Hard Coal",
                setName := "PP", yearCommissioned := 2002, capacity := 7 } ] ∧
    (setHistoricalLog gapMat1 gapObs gapCap 1 2002 2002).2 = [] := by
  constructor
  · have hd : derivePartition gapLifetable 2002 gapPartition
        = .ok (extractCohorts gapPartition gapMat2 2002) := rfl
    have hext : extractCohorts gapPartition gapMat2 2002
        = [ { country := "DE", technology := "Onshore", fueltype := "Hard Coal",
              setName := "PP", yearCommissioned := 2002, capacity := 7 } ] := by
      have e2000 : gapMat2.val 2000 2002 = 0 := by
        rw [gapMat2_val_off 2000 (by norm_num)]
        rfl
      have e2001 : gapMat2.val 2001 2002 = 0 := by
        rw [gapMat2_val_off 2001 (by norm_num)]
        rfl
      norm_num [extractCohorts, gapMat2_rows, e2000, e2001, gapMat2_val_2002,
        gapPartition, List.filter_cons]
    unfold derive_vintage_cohorts_from_statistics
    simp only [List.foldl_cons, List.foldl_nil, hd, hext, Except.bind, Except.map,
      List.nil_append]
    norm_num [npIsClose0, List.filter_cons]
  · exact setHistoricalLog_empty gapMat1 gapObs gapCap 1 2002 2002

end PPM
